import Mathlib

/-!
Verification of `montecarlo.py` (classes `Die`, `Game`, `Analyzer`).

The Python code is shallowly embedded:

* A NumPy `float64` is modelled by `PFloat`: an exact rational for finite
  values plus the IEEE 754 special values `inf` and `nan`.  Rounding is
  abstracted away (finite arithmetic is exact); the special-value rules for
  addition and division follow IEEE 754.
* A pandas `DataFrame` of game results is modelled row-major as
  `List (List α)` (rows = roll number, columns = die number).
* Randomness is passed explicitly: `np.random.choice` receives a stream
  `u : Nat → ℚ` of uniform samples in `[0, 1)` and selects outcomes by the
  inverse-CDF construction that NumPy uses (`cdf.searchsorted(u, 'right')`).
* A Python method that may raise is embedded either as an `Except` or as a
  state/`Option`-error pair, mirroring the fact that an exception aborts the
  method before any later mutation.
-/

set_option autoImplicit false

namespace MonteCarlo

universe u_1

variable {α : Type u_1}

/-- Model of a NumPy `float64`: an exact rational for finite values, plus
`inf b` (`b = true` for `+∞`, `b = false` for `-∞`) and `nan`. -/
inductive PFloat where
  | num : ℚ → PFloat
  | inf : Bool → PFloat
  | nan : PFloat
  deriving DecidableEq

/-- IEEE 754 addition on the float model (exact on finite values). -/
def PFloat.add : PFloat → PFloat → PFloat
  | nan, _ => nan
  | _, nan => nan
  | num a, num b => num (a + b)
  | num _, inf s => inf s
  | inf s, num _ => inf s
  | inf s, inf t => if s = t then inf s else nan

/-- IEEE 754 division on the float model (exact on finite values;
`0/0 = nan`, `x/0 = ±∞` for `x ≠ 0`, treating the zero divisor as `+0`). -/
def PFloat.div : PFloat → PFloat → PFloat
  | nan, _ => nan
  | _, nan => nan
  | num a, num b =>
      if b = 0 then (if a = 0 then nan else inf (decide (0 < a)))
      else num (a / b)
  | num _, inf _ => num 0
  | inf s, num b => if b < 0 then inf (!s) else inf s
  | inf _, inf _ => nan

/-- `ndarray.sum()` on the float model: a left fold of IEEE addition
starting from `0`. -/
def PFloat.sum (l : List PFloat) : PFloat := l.foldl PFloat.add (PFloat.num 0)

/-- `np.isnan`. -/
def PFloat.isNan : PFloat → Bool
  | nan => true
  | _ => false

/-- The IEEE test `x < 0` (false on `nan`). -/
def PFloat.isNeg : PFloat → Bool
  | num a => decide (a < 0)
  | inf s => !s
  | nan => false

/-- The tolerance `sqrt(eps)` used by `np.random.choice` to test that the
probabilities sum to 1 (`eps = 2^-52`, so `atol = 2^-26`). -/
def npChoiceAtol : ℚ := 1 / 2 ^ 26

/-- The IEEE test `abs(s - 1) > atol` (false on `nan`, true on `±∞`),
applied by `np.random.choice` to the probability sum. -/
def PFloat.sumOffTol : PFloat → Bool
  | num s => decide (npChoiceAtol < |s - 1|)
  | inf _ => true
  | nan => false

/-- The rational carried by a finite float (`0` on the special values; only
applied after `np.random.choice` has ruled the special values out). -/
def PFloat.toRat : PFloat → ℚ
  | num a => a
  | _ => 0

/-- `ndarray.cumsum()` with a starting accumulator. -/
def cumsumFrom (acc : ℚ) : List ℚ → List ℚ
  | [] => []
  | x :: l => (acc + x) :: cumsumFrom (acc + x) l

/-- `ndarray.cumsum()`: the list of partial sums. -/
def cumsum (l : List ℚ) : List ℚ := cumsumFrom 0 l

/-- `cdf.searchsorted(v, side='right')` on an ascending array: the number of
entries `≤ v`, i.e. the insertion index that keeps the array sorted. -/
def searchsortedRight (cdf : List ℚ) (v : ℚ) : Nat :=
  cdf.countP (fun c => decide (c ≤ v))

/-- The errors `np.random.choice` can raise, in the order its validation
performs the checks (NumPy ≥ 1.22, which checks the probability sum for
`nan` before anything else about `p`). -/
inductive NpError where
  | emptyA
  | sizeMismatch
  | probsContainNaN
  | probsNotNonneg
  | probsDoNotSumTo1
  | indexError
  deriving DecidableEq

/-- `np.random.choice(a, size=n, p=p)` with an explicit stream `u` of
uniform samples in `[0, 1)`:

* empty population → `ValueError("a must be non-empty")`;
* `p` of the wrong length → `ValueError("a and p must have same size")`;
* `nan` probability sum → `ValueError("probabilities contain NaN")`;
* a negative probability → `ValueError("probabilities are not non-negative")`;
* sum off `1` by more than `atol` → `ValueError("probabilities do not sum to 1")`;
* otherwise sample by the inverse CDF: outcome `i` is
  `a[cdf.searchsorted(u i, side='right')]` where `cdf` is the normalized
  cumulative sum of `p` (an out-of-range index would be an `IndexError`,
  as in `ndarray.take`). -/
def npChoice (a : List α) (p : List PFloat) (n : Nat) (u : Nat → ℚ) :
    Except NpError (List α) :=
  match a with
  | [] => .error .emptyA
  | a0 :: arest =>
      if p.length ≠ (a0 :: arest).length then .error .sizeMismatch
      else
        let psum := PFloat.sum p
        if psum.isNan then .error .probsContainNaN
        else if p.any PFloat.isNeg then .error .probsNotNonneg
        else if psum.sumOffTol then .error .probsDoNotSumTo1
        else
          let q := p.map PFloat.toRat
          let cdf := cumsum q
          let lastC := cdf.getLastD 1
          let cdf2 := cdf.map (fun c => c / lastC)
          let idxs := (List.range n).map (fun i => searchsortedRight cdf2 (u i))
          if idxs.all (fun j => decide (j < (a0 :: arest).length)) then
            .ok (idxs.map (fun j => (a0 :: arest).getD j a0))
          else .error .indexError

/-- The Python exceptions raised by the repository's own code. -/
inductive PyError where
  | typeError
  | valueError
  | indexError
  | attributeError
  deriving DecidableEq

/-- `Die`: the face array and the parallel weight column of the internal
dataframe `_df` (faces are the index, weights the single column). -/
structure Die (α : Type u_1) where
  faces : List α
  weights : List PFloat
  deriving DecidableEq

/-- The representation invariant established by `Die.__init__` and preserved
by every method: one weight per face. -/
def Die.Wf (d : Die α) : Prop := d.weights.length = d.faces.length

instance (d : Die α) : Decidable d.Wf :=
  inferInstanceAs (Decidable (d.weights.length = d.faces.length))

/-- `Die.__init__(faces)`: the argument is modelled as already being an
array (the `isinstance(faces, np.ndarray)` check is about the Python-level
type of the argument); duplicate faces raise `ValueError`, and every face's
weight starts at `1.0`. -/
def Die.init [DecidableEq α] (faces : List α) : Except PyError (Die α) :=
  if faces.Nodup then .ok ⟨faces, faces.map (fun _ => PFloat.num 1)⟩
  else .error .valueError

/-- A Python value passed as `new_weight`: either a value that `float()`
converts to a float, or one on which `float()` raises. -/
inductive PyVal where
  | asFloat : PFloat → PyVal
  | nonNumeric : PyVal
  deriving DecidableEq

/-- `float(new_weight)`. -/
def PyVal.toFloat : PyVal → Option PFloat
  | asFloat x => some x
  | nonNumeric => none

/-- `Die.change_weight(face, new_weight)`: `IndexError` if the face is not
in the index, `TypeError` if `float(new_weight)` fails, otherwise the single
cell `_df.at[face, 'weight']` is overwritten.  Returned as (state after the
call, raised exception if any); an exception leaves the die untouched. -/
def Die.change_weight [DecidableEq α] (d : Die α) (face : α) (new_weight : PyVal) :
    Die α × Option PyError :=
  if face ∈ d.faces then
    match new_weight.toFloat with
    | some x => ({ d with weights := d.weights.set (d.faces.indexOf face) x }, none)
    | none => (d, some .typeError)
  else (d, some .indexError)

/-- `Die.roll(n)`: `probabilities = weights / weights.sum()` followed by
`np.random.choice(faces, size=n, p=probabilities)`.  The method contains no
assignment to `self`, so the first component of the result is the unchanged
die. -/
def Die.roll (d : Die α) (n : Nat) (u : Nat → ℚ) :
    Die α × Except NpError (List α) :=
  let probabilities := d.weights.map (fun w => w.div (PFloat.sum d.weights))
  (d, npChoice d.faces probabilities n u)

/-- `Die.show()`: a copy of the face/weight dataframe. -/
def Die.show (d : Die α) : List (α × PFloat) := d.faces.zip d.weights

/-- `Game`: the list of dice and `_results` (absent until the first play). -/
structure Game (α : Type u_1) where
  dice : List (Die α)
  results : Option (List (List α))

/-- `Game.__init__(dice)`: stores the dice, `_results = None`. -/
def Game.init (dice : List (Die α)) : Game α := ⟨dice, none⟩

/-- The loop body of `Game.play`:
`for i, die in enumerate(self.dice): all_results[i] = die.roll(n_rolls)`.
The first raised exception propagates; later dice are not rolled.  `u` gives
die number `i` its own uniform stream `u i`. -/
def Game.rollCols (dice : List (Die α)) (nRolls : Nat) (u : Nat → Nat → ℚ)
    (i : Nat) : Except NpError (List (List α)) :=
  match dice with
  | [] => .ok []
  | d :: ds =>
      match (d.roll nRolls (u i)).2 with
      | .error e => .error e
      | .ok xs =>
          match Game.rollCols ds nRolls u (i + 1) with
          | .error e => .error e
          | .ok rest => .ok (xs :: rest)

/-- `pd.DataFrame(dict-of-columns)` read row-major: row `i` collects the
`i`-th entry of every column.  All columns produced by `Game.play` have the
same length `n_rolls`, so the row count is the length of the first column
(`0` when there are no columns, as in pandas). -/
def dfFromCols (cols : List (List α)) : List (List α) :=
  (List.range (cols.headD []).length).map
    (fun i => cols.filterMap (fun col => col[i]?))

/-- `Game.play(n_rolls)`: rolls every die, then (only after the whole loop
has succeeded) wholesale replaces `_results` with the assembled wide table.
Returned as (state after the call, raised exception if any). -/
def Game.play (g : Game α) (nRolls : Nat) (u : Nat → Nat → ℚ) :
    Game α × Option NpError :=
  match Game.rollCols g.dice nRolls u 0 with
  | .error e => (g, some e)
  | .ok cols => ({ g with results := some (dfFromCols cols) }, none)

/-- `DataFrame.stack()` on the wide table: one entry per
`(roll_number, die_number)` pair, roll-major. -/
def stack (rows : List (List α)) : List ((Nat × Nat) × α) :=
  rows.enum.flatMap (fun p => p.2.enum.map (fun q => ((p.1, q.1), q.2)))

/-- The value returned by `Game.show`: the wide dataframe, or the narrow
(stacked, two-level-indexed, single `outcome` column) dataframe. -/
inductive ShowResult (α : Type u_1) where
  | wide : List (List α) → ShowResult α
  | narrow : List ((Nat × Nat) × α) → ShowResult α
  deriving DecidableEq

/-- `Game.show(form)`: `None` when `_results is None` (this check comes
first, for every `form`); then a copy of the wide table, the stacked narrow
table, or `ValueError` for any other `form` string. -/
def Game.show (g : Game α) (form : String) :
    Except PyError (Option (ShowResult α)) :=
  match g.results with
  | none => .ok none
  | some res =>
      if form = "wide" then .ok (some (.wide res))
      else if form = "narrow" then .ok (some (.narrow (stack res)))
      else .error .valueError

/-- `Analyzer`: `_df_results`, the value of `game.show('wide')` taken at
construction time (which is `None` for a never-played game).  The four lazy
cache attributes (`jackpot_count`, …) start at `None` and receive the value
their method returns; they never influence any returned value, so they are
not carried in the state. -/
structure Analyzer (α : Type u_1) where
  dfResults : Option (List (List α))

/-- The argument of `Analyzer.__init__`: a `Game`, or any object that is
not an instance of `Game`. -/
inductive AnalyzerArg (α : Type u_1) where
  | game : Game α → AnalyzerArg α
  | notGame : AnalyzerArg α

/-- `Analyzer.__init__(game)`: `ValueError` unless the argument is a
`Game`; otherwise stores `game.show('wide')`.  For the literal form
`'wide'`, `Game.show` only ever returns `.ok none` or `.ok (some (wide t))`;
the remaining arms are unreachable. -/
def Analyzer.init (arg : AnalyzerArg α) : Except PyError (Analyzer α) :=
  match arg with
  | .notGame => .error .valueError
  | .game g =>
      match g.show "wide" with
      | .ok none => .ok ⟨none⟩
      | .ok (some (.wide t)) => .ok ⟨some t⟩
      | .ok (some (.narrow _)) => .ok ⟨none⟩
      | .error e => .error e

/-- `Analyzer.jackpot()`: counts the rows all of whose cells are equal
(`len(set(x)) == 1`).  When `_df_results` is `None` (never-played game) the
attribute access `None.apply` raises `AttributeError`. -/
def Analyzer.jackpot [DecidableEq α] (an : Analyzer α) : Except PyError Nat :=
  match an.dfResults with
  | none => .error .attributeError
  | some df => .ok (df.countP (fun row => decide (row.dedup.length = 1)))

/-- `pd.unique` applied below: the distinct values of `l` in first-occurrence
order, via a structurally recursive accumulator of values already seen. -/
def firstUniquesAux [DecidableEq α] (seen : List α) : List α → List α
  | [] => []
  | x :: l =>
      if x ∈ seen then firstUniquesAux seen l
      else x :: firstUniquesAux (seen ++ [x]) l

/-- `pd.unique(arr)`: distinct values in first-occurrence order. -/
def firstUniques [DecidableEq α] (l : List α) : List α := firstUniquesAux [] l

/-- `Analyzer.face_counts_per_roll()`: the column universe is
`pd.unique(df.values.ravel())` — the distinct values actually observed, in
first-occurrence order of the row-major flattened table — and each row's
cell under a value is that row's occurrence count of the value.  Returned as
(column universe, row-major count table); `AttributeError` when
`_df_results` is `None`. -/
def Analyzer.face_counts_per_roll [DecidableEq α] (an : Analyzer α) :
    Except PyError (List α × List (List Nat)) :=
  match an.dfResults with
  | none => .error .attributeError
  | some df =>
      let uniqueFaces := firstUniques df.flatten
      .ok (uniqueFaces, df.map (fun row => uniqueFaces.map (fun f => row.count f)))

/-- `Series.value_counts()` restricted to what the verified claims use: the
distinct keys (in first-occurrence order) with their occurrence counts.
pandas additionally orders the output by descending count; no claim below
depends on that ordering, which the specification itself leaves open. -/
def valueCounts {κ : Type u_1} [DecidableEq κ] (l : List κ) : List (κ × Nat) :=
  (firstUniques l).map (fun k => (k, l.count k))

/-- `sorted(x)` on one row: ascending stable sort. -/
def sortRow [LinearOrder α] (row : List α) : List α :=
  row.insertionSort (fun a b => a ≤ b)

/-- `Analyzer.combo()`: keys each row by `tuple(sorted(x))` and tallies with
`value_counts`; `AttributeError` when `_df_results` is `None`. -/
def Analyzer.combo [LinearOrder α] (an : Analyzer α) :
    Except PyError (List (List α × Nat)) :=
  match an.dfResults with
  | none => .error .attributeError
  | some df => .ok (valueCounts (df.map (fun row => sortRow row)))

/-- `Analyzer.permutation()`: keys each row by `tuple(x)` — the original
die-order — and tallies with `value_counts`; `AttributeError` when
`_df_results` is `None`. -/
def Analyzer.permutation [DecidableEq α] (an : Analyzer α) :
    Except PyError (List (List α × Nat)) :=
  match an.dfResults with
  | none => .error .attributeError
  | some df => .ok (valueCounts (df.map (fun row => row)))

/-! ### Lemmas about the float model -/

theorem PFloat.add_eq_num {x y : PFloat} {c : ℚ} (h : PFloat.add x y = PFloat.num c) :
    ∃ a b, x = PFloat.num a ∧ y = PFloat.num b ∧ a + b = c := by
  cases x <;> cases y <;> simp [PFloat.add] at h
  case num.num a b => exact ⟨a, b, rfl, rfl, h⟩
  case inf.inf s t => split at h <;> simp at h

theorem PFloat.foldl_add_nan (l : List PFloat) :
    l.foldl PFloat.add PFloat.nan = PFloat.nan := by
  induction l with
  | nil => rfl
  | cons x t ih => simpa [PFloat.add] using ih

theorem PFloat.foldl_add_eq_num {l : List PFloat} {acc : PFloat} {s : ℚ}
    (h : l.foldl PFloat.add acc = PFloat.num s) :
    (∃ a, acc = PFloat.num a) ∧ ∀ w ∈ l, ∃ b, w = PFloat.num b := by
  induction l generalizing acc with
  | nil => exact ⟨⟨s, h⟩, by simp⟩
  | cons x t ih =>
      rcases ih (by simpa using h) with ⟨⟨c, hc⟩, ht⟩
      rcases PFloat.add_eq_num hc with ⟨a, b, ha, hb, -⟩
      refine ⟨⟨a, ha⟩, ?_⟩
      intro w hw
      rcases List.mem_cons.mp hw with rfl | hw
      · exact ⟨b, hb⟩
      · exact ht w hw

theorem PFloat.sum_all_num {l : List PFloat} {s : ℚ}
    (h : PFloat.sum l = PFloat.num s) : ∀ w ∈ l, ∃ b, w = PFloat.num b :=
  (PFloat.foldl_add_eq_num h).2

theorem PFloat.foldl_add_num {l : List PFloat} (a0 : ℚ)
    (h : ∀ w ∈ l, ∃ b, w = PFloat.num b) :
    l.foldl PFloat.add (PFloat.num a0) = PFloat.num (a0 + (l.map PFloat.toRat).sum) := by
  induction l generalizing a0 with
  | nil => simp
  | cons x t ih =>
      rcases h x (by simp) with ⟨b, rfl⟩
      have := ih (a0 + b) (fun w hw => h w (by simp [hw]))
      simpa [PFloat.add, PFloat.toRat, add_assoc] using this

theorem PFloat.sum_eq_num_sum {l : List PFloat}
    (h : ∀ w ∈ l, ∃ b, w = PFloat.num b) :
    PFloat.sum l = PFloat.num ((l.map PFloat.toRat).sum) := by
  simpa using PFloat.foldl_add_num 0 h

theorem PFloat.foldl_add_nan_of_mem {l : List PFloat} (h : PFloat.nan ∈ l) :
    ∀ acc, l.foldl PFloat.add acc = PFloat.nan := by
  induction l with
  | nil => simp at h
  | cons x t ih =>
      intro acc
      rcases List.mem_cons.mp h with rfl | hx
      · have : PFloat.add acc PFloat.nan = PFloat.nan := by cases acc <;> rfl
        simpa [this] using PFloat.foldl_add_nan t
      · exact ih hx _

theorem PFloat.foldl_add_inf_opp {l : List PFloat}
    (hshape : ∀ w ∈ l, w = PFloat.nan ∨ ∃ b, w = PFloat.inf b) :
    ∀ s, PFloat.inf (!s) ∈ l → l.foldl PFloat.add (PFloat.inf s) = PFloat.nan := by
  induction l with
  | nil => simp
  | cons x t ih =>
      intro s hmem
      rcases hshape x (by simp) with rfl | ⟨b, rfl⟩
      · have : PFloat.add (PFloat.inf s) PFloat.nan = PFloat.nan := rfl
        simpa [this] using PFloat.foldl_add_nan t
      · by_cases hb : s = b
        · subst hb
          have hx : PFloat.inf (!s) ∈ t := by
            rcases List.mem_cons.mp hmem with h | h
            · exact absurd h (by simp)
            · exact h
          have hadd : PFloat.add (PFloat.inf s) (PFloat.inf s) = PFloat.inf s := by
            simp [PFloat.add]
          rw [List.foldl_cons, hadd]
          exact ih (fun w hw => hshape w (by simp [hw])) s hx
        · have hadd : PFloat.add (PFloat.inf s) (PFloat.inf b) = PFloat.nan := by
            simp [PFloat.add, hb]
          rw [List.foldl_cons, hadd]
          exact PFloat.foldl_add_nan t

theorem list_sum_pos_of_mem {l : List ℚ} {b : ℚ} (h0 : ∀ a ∈ l, 0 ≤ a)
    (hb : b ∈ l) (hbp : 0 < b) : 0 < l.sum := by
  induction l with
  | nil => simp at hb
  | cons x t ih =>
      rcases List.mem_cons.mp hb with rfl | hb
      · have ht : 0 ≤ t.sum := List.sum_nonneg (fun a ha => h0 a (by simp [ha]))
        simp only [List.sum_cons]
        linarith
      · have hx : 0 ≤ x := h0 x (by simp)
        have ht := ih (fun a ha => h0 a (by simp [ha])) hb
        simp only [List.sum_cons]
        linarith

theorem list_sum_nonpos {l : List ℚ} (h0 : ∀ a ∈ l, a ≤ 0) : l.sum ≤ 0 := by
  induction l with
  | nil => simp
  | cons x t ih =>
      have hx : x ≤ 0 := h0 x (by simp)
      have ht := ih (fun a ha => h0 a (by simp [ha]))
      simp only [List.sum_cons]
      linarith

theorem list_sum_neg_of_mem {l : List ℚ} {b : ℚ} (h0 : ∀ a ∈ l, a ≤ 0)
    (hb : b ∈ l) (hbn : b < 0) : l.sum < 0 := by
  induction l with
  | nil => simp at hb
  | cons x t ih =>
      rcases List.mem_cons.mp hb with rfl | hb
      · have ht : t.sum ≤ 0 := list_sum_nonpos (fun a ha => h0 a (by simp [ha]))
        simp only [List.sum_cons]
        linarith
      · have hx : x ≤ 0 := h0 x (by simp)
        have ht := ih (fun a ha => h0 a (by simp [ha])) hb
        simp only [List.sum_cons]
        linarith

theorem exists_pos_and_neg_of_sum_zero {l : List ℚ} (hz : l.sum = 0) {a0 : ℚ}
    (ha0 : a0 ∈ l) (hne : a0 ≠ 0) : (∃ a ∈ l, 0 < a) ∧ ∃ a ∈ l, a < 0 := by
  constructor
  · by_contra h
    push_neg at h
    have ha0n : a0 < 0 := lt_of_le_of_ne (h a0 ha0) hne
    have := list_sum_neg_of_mem h ha0 ha0n
    rw [hz] at this
    exact absurd this (by norm_num)
  · by_contra h
    push_neg at h
    have ha0p : 0 < a0 := lt_of_le_of_ne (h a0 ha0) (Ne.symm hne)
    have := list_sum_pos_of_mem h ha0 ha0p
    rw [hz] at this
    exact absurd this (by norm_num)

theorem PFloat.sum_nan_of_both_inf {l : List PFloat}
    (hshape : ∀ w ∈ l, w = PFloat.nan ∨ ∃ b, w = PFloat.inf b)
    (hpos : PFloat.inf true ∈ l) (hneg : PFloat.inf false ∈ l) :
    PFloat.sum l = PFloat.nan := by
  rcases l with - | ⟨x, t⟩
  · simp at hpos
  · rcases hshape x (by simp) with rfl | ⟨b, rfl⟩
    · exact PFloat.foldl_add_nan_of_mem (by simp) _
    · have hadd : PFloat.add (PFloat.num 0) (PFloat.inf b) = PFloat.inf b := rfl
      have hx : PFloat.inf (!b) ∈ t := by
        cases b
        · rcases List.mem_cons.mp hpos with h | h
          · exact absurd h (by simp)
          · exact h
        · rcases List.mem_cons.mp hneg with h | h
          · exact absurd h (by simp)
          · exact h
      have hrw : PFloat.sum (PFloat.inf b :: t) = t.foldl PFloat.add (PFloat.inf b) := by
        simp [PFloat.sum, hadd]
      rw [hrw]
      exact PFloat.foldl_add_inf_opp (fun w hw => hshape w (by simp [hw])) b hx

/-- The heart of claim C1: dividing a nonempty list of finite weights whose
sum is zero by that zero sum yields probabilities whose IEEE sum is `nan`
(the all-zero case gives `0/0 = nan` entries; a mixed-sign case gives both
`+∞` and `-∞` entries, which annihilate to `nan`). -/
theorem sum_probs_nan {ws : List PFloat} (hne : ws ≠ [])
    (hfin : ∀ w ∈ ws, ∃ a, w = PFloat.num a)
    (hzero : (ws.map PFloat.toRat).sum = 0) :
    PFloat.sum (ws.map (fun w => w.div (PFloat.num 0))) = PFloat.nan := by
  by_cases hall : ∀ w ∈ ws, w = PFloat.num 0
  · have hmem : PFloat.nan ∈ ws.map (fun w => w.div (PFloat.num 0)) := by
      rcases ws with - | ⟨x, t⟩
      · exact absurd rfl hne
      · have hx := hall x (by simp)
        exact List.mem_map.mpr ⟨x, by simp, by simp [hx, PFloat.div]⟩
    have := PFloat.foldl_add_nan_of_mem hmem (PFloat.num 0)
    simpa [PFloat.sum] using this
  · push_neg at hall
    obtain ⟨w0, hw0mem, hw0ne⟩ := hall
    obtain ⟨a0, rfl⟩ := hfin w0 hw0mem
    have ha0 : a0 ≠ 0 := by
      intro h
      exact hw0ne (by simp [h])
    have ha0m : a0 ∈ ws.map PFloat.toRat :=
      List.mem_map.mpr ⟨PFloat.num a0, hw0mem, rfl⟩
    obtain ⟨⟨ap, hapm, hap⟩, ⟨an, hanm, han⟩⟩ :=
      exists_pos_and_neg_of_sum_zero hzero ha0m ha0
    obtain ⟨wp, hwpmem, hwp⟩ := List.mem_map.mp hapm
    obtain ⟨bp, rfl⟩ := hfin wp hwpmem
    obtain ⟨wn, hwnmem, hwn⟩ := List.mem_map.mp hanm
    obtain ⟨bn, rfl⟩ := hfin wn hwnmem
    have hbp : 0 < bp := by
      have heq : bp = ap := by simpa [PFloat.toRat] using hwp
      rw [heq]
      exact hap
    have hbn : bn < 0 := by
      have heq : bn = an := by simpa [PFloat.toRat] using hwn
      rw [heq]
      exact han
    apply PFloat.sum_nan_of_both_inf
    · intro p hp
      obtain ⟨w, hwm, rfl⟩ := List.mem_map.mp hp
      obtain ⟨a, rfl⟩ := hfin w hwm
      by_cases h : a = 0
      · left
        simp [PFloat.div, h]
      · right
        exact ⟨decide (0 < a), by simp [PFloat.div, h]⟩
    · exact List.mem_map.mpr ⟨PFloat.num bp, hwpmem,
        by simp [PFloat.div, hbp.ne', hbp]⟩
    · exact List.mem_map.mpr ⟨PFloat.num bn, hwnmem,
        by simp [PFloat.div, hbn.ne, not_lt.mpr hbn.le]⟩

/-! ### Lemmas about cumulative sums, `searchsorted` and list access -/

theorem cumsumFrom_length (acc : ℚ) (l : List ℚ) :
    (cumsumFrom acc l).length = l.length := by
  induction l generalizing acc with
  | nil => rfl
  | cons x t ih => simp [cumsumFrom, ih]

theorem cumsumFrom_getLastD (x : ℚ) (t : List ℚ) (acc d : ℚ) :
    (cumsumFrom acc (x :: t)).getLastD d = acc + (x :: t).sum := by
  induction t generalizing x acc d with
  | nil => simp [cumsumFrom]
  | cons y t ih =>
      have h2 := ih y (acc + x) (acc + x)
      simp only [cumsumFrom, List.getLastD_cons, List.sum_cons] at h2 ⊢
      rw [h2]
      ring

theorem getLastD_mem (x : α) (t : List α) (d : α) : (x :: t).getLastD d ∈ x :: t := by
  induction t generalizing x d with
  | nil => simp
  | cons y t ih =>
      rw [List.getLastD_cons]
      exact List.mem_cons_of_mem _ (ih y x)

theorem countP_lt_length {p : α → Bool} {l : List α} {x : α} (hx : x ∈ l)
    (h : ¬ p x) : l.countP p < l.length := by
  have hle := List.countP_le_length (p := p) (l := l)
  rcases Nat.lt_or_ge (l.countP p) l.length with h1 | h1
  · exact h1
  · exact absurd ((List.countP_eq_length.mp (Nat.le_antisymm hle h1)) x hx) h

theorem getD_mem {l : List α} {j : Nat} (h : j < l.length) (d : α) :
    l.getD j d ∈ l := by
  induction l generalizing j with
  | nil => simp at h
  | cons x t ih =>
      cases j with
      | zero => simp
      | succ j =>
          simp only [List.getD_cons_succ]
          exact List.mem_cons_of_mem _ (ih (by simpa using h))

theorem list_sum_map_div (l : List ℚ) (s : ℚ) :
    (l.map (fun x => x / s)).sum = l.sum / s := by
  induction l with
  | nil => simp
  | cons x t ih => simp [ih, add_div]

/-- When the probability vector has the right length and consists of finite
non-negative entries summing (exactly) to 1, `np.random.choice` succeeds and
every drawn outcome is a member of the population, provided the uniform
samples lie in `[0, 1)`. -/
theorem npChoice_ok {a : List α} {p : List PFloat} (n : Nat) (u : Nat → ℚ)
    (hlen : p.length = a.length) (hane : a ≠ [])
    (hprob : ∀ w ∈ p, ∃ q, w = PFloat.num q ∧ 0 ≤ q)
    (hsum1 : (p.map PFloat.toRat).sum = 1)
    (hu : ∀ i, 0 ≤ u i ∧ u i < 1) :
    ∃ xs, npChoice a p n u = .ok xs ∧ xs.length = n ∧ ∀ x ∈ xs, x ∈ a := by
  rcases a with - | ⟨a0, arest⟩
  · exact absurd rfl hane
  · have hfin : ∀ w ∈ p, ∃ q, w = PFloat.num q := by
      intro w hw
      obtain ⟨q, hq, -⟩ := hprob w hw
      exact ⟨q, hq⟩
    have hpsum : PFloat.sum p = PFloat.num 1 := by
      rw [PFloat.sum_eq_num_sum hfin, hsum1]
    have hnn : p.any PFloat.isNeg = false := by
      simp only [List.any_eq_false]
      intro w hw
      obtain ⟨q, rfl, hq⟩ := hprob w hw
      simp [PFloat.isNeg, not_lt.mpr hq]
    have htol : (PFloat.num 1).sumOffTol = false := by
      norm_num [PFloat.sumOffTol, npChoiceAtol]
    have hpne : p ≠ [] := by
      intro h
      rw [h] at hlen
      simp at hlen
    obtain ⟨q0, qt, hqcons⟩ : ∃ q0 qt, p.map PFloat.toRat = q0 :: qt := by
      rcases hmq : p.map PFloat.toRat with - | ⟨q0, qt⟩
      · exact absurd (List.map_eq_nil_iff.mp hmq) hpne
      · exact ⟨q0, qt, rfl⟩
    have hcd : cumsum (p.map PFloat.toRat) =
        (0 + q0) :: cumsumFrom (0 + q0) qt := by
      rw [hqcons]
      rfl
    have hlast : (cumsum (p.map PFloat.toRat)).getLastD 1 = 1 := by
      rw [hqcons, cumsum, cumsumFrom_getLastD, ← hqcons, hsum1]
      norm_num
    have hone_mem : (1 : ℚ) ∈ (cumsum (p.map PFloat.toRat)).map
        (fun c => c / (cumsum (p.map PFloat.toRat)).getLastD 1) := by
      refine List.mem_map.mpr ⟨(cumsum (p.map PFloat.toRat)).getLastD 1, ?_, ?_⟩
      · rw [hcd]
        exact getLastD_mem _ _ _
      · rw [hlast]
        norm_num
    have hcdlen : (cumsum (p.map PFloat.toRat)).length = (a0 :: arest).length := by
      rw [cumsum, cumsumFrom_length, List.length_map, hlen]
    have hidx : ∀ i, searchsortedRight
        ((cumsum (p.map PFloat.toRat)).map
          (fun c => c / (cumsum (p.map PFloat.toRat)).getLastD 1)) (u i) <
        (a0 :: arest).length := by
      intro i
      have hnle : ¬ (decide ((1 : ℚ) ≤ u i) = true) := by
        simp only [decide_eq_true_eq]
        exact not_le.mpr (hu i).2
      have hlt := countP_lt_length (p := fun c => decide (c ≤ u i)) hone_mem hnle
      rw [searchsortedRight]
      calc ((cumsum (p.map PFloat.toRat)).map
              (fun c => c / (cumsum (p.map PFloat.toRat)).getLastD 1)).countP
              (fun c => decide (c ≤ u i))
          < ((cumsum (p.map PFloat.toRat)).map
              (fun c => c / (cumsum (p.map PFloat.toRat)).getLastD 1)).length := hlt
        _ = (a0 :: arest).length := by rw [List.length_map, hcdlen]
    have hall : (((List.range n).map (fun i => searchsortedRight
        ((cumsum (p.map PFloat.toRat)).map
          (fun c => c / (cumsum (p.map PFloat.toRat)).getLastD 1)) (u i))).all
        (fun j => decide (j < (a0 :: arest).length))) = true := by
      simp only [List.all_eq_true, List.mem_map, List.mem_range, decide_eq_true_eq]
      rintro j ⟨i, -, rfl⟩
      exact hidx i
    have hok : npChoice (a0 :: arest) p n u =
        .ok (((List.range n).map (fun i => searchsortedRight
          ((cumsum (p.map PFloat.toRat)).map
            (fun c => c / (cumsum (p.map PFloat.toRat)).getLastD 1)) (u i))).map
          (fun j => (a0 :: arest).getD j a0)) := by
      simp only [npChoice, hlen, ne_eq, not_true_eq_false, if_false, hpsum,
        PFloat.isNan, Bool.false_eq_true, hnn, htol, hall, if_true]
    refine ⟨_, hok, by simp, ?_⟩
    intro x hx
    simp only [List.mem_map, List.mem_range] at hx
    obtain ⟨j, ⟨i, -, rfl⟩, rfl⟩ := hx
    exact getD_mem (hidx i) a0

/-- `Die.roll` on a die satisfying the data-model invariant (one finite,
non-negative weight per face) with positive weight sum: the die is left
unchanged and the call returns `n` outcomes, each of them a face. -/
theorem Die.roll_ok {d : Die α} (n : Nat) (u : Nat → ℚ)
    (hwf : d.Wf)
    (hw : ∀ w ∈ d.weights, ∃ q, w = PFloat.num q ∧ 0 ≤ q)
    (hs : ∃ s, PFloat.sum d.weights = PFloat.num s ∧ 0 < s)
    (hu : ∀ i, 0 ≤ u i ∧ u i < 1) :
    (d.roll n u).1 = d ∧
      ∃ xs, (d.roll n u).2 = .ok xs ∧ xs.length = n ∧ ∀ x ∈ xs, x ∈ d.faces := by
  obtain ⟨s, hsum, hspos⟩ := hs
  have hsne : s ≠ 0 := ne_of_gt hspos
  have hfin : ∀ w ∈ d.weights, ∃ q, w = PFloat.num q := by
    intro w hwm
    obtain ⟨q, hq, -⟩ := hw w hwm
    exact ⟨q, hq⟩
  have hws : (d.weights.map PFloat.toRat).sum = s := by
    have h1 := PFloat.sum_eq_num_sum hfin
    rw [hsum] at h1
    injection h1 with h
    exact h.symm
  have hmap : d.weights.map (fun w => w.div (PFloat.sum d.weights)) =
      d.weights.map (fun w => PFloat.num (PFloat.toRat w / s)) := by
    apply List.map_congr_left
    intro w hwm
    obtain ⟨q, rfl⟩ := hfin w hwm
    rw [hsum]
    simp [PFloat.div, hsne, PFloat.toRat]
  have hwne : d.weights ≠ [] := by
    intro h
    rw [h] at hsum
    simp only [PFloat.sum, List.foldl_nil, PFloat.num.injEq] at hsum
    exact hsne hsum.symm
  have hfne : d.faces ≠ [] := by
    intro h
    have hlen0 : d.weights.length = 0 := by rw [hwf, h]; rfl
    exact hwne (List.length_eq_zero.mp hlen0)
  obtain ⟨xs, hxs, hlen, hmem⟩ := npChoice_ok (a := d.faces)
      (p := d.weights.map (fun w => PFloat.num (PFloat.toRat w / s))) n u
      (by rw [List.length_map]; exact hwf)
      hfne
      (by
        intro w hwm
        simp only [List.mem_map] at hwm
        obtain ⟨w0, hw0, rfl⟩ := hwm
        obtain ⟨q, rfl, hq⟩ := hw w0 hw0
        exact ⟨q / s, by simp [PFloat.toRat], div_nonneg hq hspos.le⟩)
      (by
        rw [List.map_map]
        have hcomp : (PFloat.toRat ∘ fun w => PFloat.num (PFloat.toRat w / s)) =
            fun w => PFloat.toRat w / s := by
          funext w
          simp [PFloat.toRat]
        rw [hcomp]
        have h2 : d.weights.map (fun w => PFloat.toRat w / s) =
            (d.weights.map PFloat.toRat).map (fun x => x / s) := by
          rw [List.map_map]
          rfl
        rw [h2, list_sum_map_div, hws, div_self hsne])
      hu
  refine ⟨rfl, xs, ?_, hlen, hmem⟩
  show npChoice d.faces (d.weights.map fun w => w.div (PFloat.sum d.weights)) n u = .ok xs
  rw [hmap]
  exact hxs

/-- The data-model invariant of §3 of the specification for a die: the
representation is well-formed and every weight is a finite non-negative
real. -/
def Die.DataModel (d : Die α) : Prop :=
  d.Wf ∧ ∀ w ∈ d.weights, ∃ q, w = PFloat.num q ∧ 0 ≤ q

/-- The roll loop of `Game.play` succeeds on dice with valid positive-sum
weights and yields one column of `n` outcomes per die. -/
theorem Game.rollCols_ok {dice : List (Die α)} (n : Nat) (u : Nat → Nat → ℚ)
    (hdice : ∀ d ∈ dice, d.DataModel ∧
      ∃ s, PFloat.sum d.weights = PFloat.num s ∧ 0 < s)
    (hu : ∀ i j, 0 ≤ u i j ∧ u i j < 1) :
    ∀ i, ∃ cols, Game.rollCols dice n u i = .ok cols ∧
      cols.length = dice.length ∧ ∀ c ∈ cols, c.length = n := by
  induction dice with
  | nil => exact fun i => ⟨[], rfl, rfl, by simp⟩
  | cons d ds ih =>
      intro i
      obtain ⟨⟨hwf, hwn⟩, hs⟩ := hdice d (by simp)
      obtain ⟨-, xs, hxs, hxlen, -⟩ := Die.roll_ok n (u i) hwf hwn hs (hu i)
      obtain ⟨cols, hcols, hclen, hcall⟩ :=
        ih (fun d' hd' => hdice d' (by simp [hd'])) (i + 1)
      refine ⟨xs :: cols, ?_, by simp [hclen], ?_⟩
      · simp only [Game.rollCols, hxs, hcols]
      · intro c hc
        rcases List.mem_cons.mp hc with rfl | hc
        · exact hxlen
        · exact hcall c hc

theorem filterMap_get_length {cols : List (List α)} {n i : Nat}
    (hall : ∀ col ∈ cols, col.length = n) (hi : i < n) :
    (cols.filterMap (fun col => col[i]?)).length = cols.length := by
  induction cols with
  | nil => rfl
  | cons col cs ih =>
      have hic : i < col.length := by
        rw [hall col (by simp)]
        exact hi
      have hy : col[i]? = some col[i] := List.getElem?_eq_getElem hic
      simp [List.filterMap_cons, hy, ih (fun col' hc' => hall col' (by simp [hc']))]

/-- Shape of `pd.DataFrame(dict-of-columns)`: with at least one column and
all columns of length `n`, the row-major table has `n` rows, each of width
the number of columns. -/
theorem dfFromCols_shape {cols : List (List α)} {n : Nat}
    (hne : cols ≠ []) (hall : ∀ c ∈ cols, c.length = n) :
    (dfFromCols cols).length = n ∧
      ∀ r ∈ dfFromCols cols, r.length = cols.length := by
  have hhead : (cols.headD []).length = n := by
    rcases cols with - | ⟨c, cs⟩
    · exact absurd rfl hne
    · exact hall c (by simp)
  constructor
  · simp only [dfFromCols, List.length_map, List.length_range, hhead]
  · intro r hr
    simp only [dfFromCols, hhead, List.mem_map, List.mem_range] at hr
    obtain ⟨i, hi, rfl⟩ := hr
    exact filterMap_get_length hall hi

theorem sum_map_length_const {rows : List (List α)} {k : Nat}
    (hall : ∀ r ∈ rows, r.length = k) :
    (rows.map List.length).sum = rows.length * k := by
  induction rows with
  | nil => simp
  | cons r rs ih =>
      simp only [List.map_cons, List.sum_cons, List.length_cons, hall r (by simp),
        ih (fun r' hr' => hall r' (by simp [hr']))]
      ring

theorem stack_length {rows : List (List α)} {k : Nat}
    (hall : ∀ r ∈ rows, r.length = k) :
    (stack rows).length = rows.length * k := by
  rw [stack, List.length_flatMap]
  have h1 : List.map (List.length ∘ fun p => List.map (fun q => ((p.1, q.1), q.2)) p.2.enum)
      rows.enum = rows.enum.map (fun p => p.2.length) := by
    apply List.map_congr_left
    intro p hp
    simp [Function.comp]
  have h2 : rows.enum.map (fun p => p.2.length) = rows.map List.length := by
    have h3 : rows.enum.map (fun p => p.2.length) =
        (rows.enum.map Prod.snd).map List.length := by
      rw [List.map_map]
      rfl
    rw [h3, List.enum_map_snd]
  rw [h1, h2, sum_map_length_const hall]

theorem mem_enumFrom_facts {l : List α} :
    ∀ {i : Nat} {q : Nat × α}, q ∈ List.enumFrom i l →
      i ≤ q.1 ∧ q.1 < i + l.length ∧ q.2 ∈ l := by
  induction l with
  | nil => intro i q hq; simp [List.enumFrom] at hq
  | cons x t ih =>
      intro i q hq
      rcases List.mem_cons.mp hq with rfl | hq
      · exact ⟨le_refl _, by simp only [List.length_cons]; omega, by simp⟩
      · obtain ⟨h1, h2, h3⟩ := ih hq
        exact ⟨Nat.le_of_succ_le h1, by simp only [List.length_cons]; omega,
          by simp [h3]⟩

theorem mem_enum_facts {l : List α} {q : Nat × α} (hq : q ∈ l.enum) :
    q.1 < l.length ∧ q.2 ∈ l := by
  have h := mem_enumFrom_facts (l := l) (i := 0) hq
  exact ⟨by simpa using h.2.1, h.2.2⟩

/-- Every entry of the narrow (stacked) table is indexed by a valid
(roll number, die number) pair. -/
theorem stack_mem_bounds {rows : List (List α)} {k : Nat}
    (hall : ∀ r ∈ rows, r.length = k) {p : (Nat × Nat) × α}
    (hp : p ∈ stack rows) : p.1.1 < rows.length ∧ p.1.2 < k := by
  rw [stack] at hp
  simp only [List.mem_flatMap, List.mem_map] at hp
  obtain ⟨q, hq, r, hr, rfl⟩ := hp
  obtain ⟨hq1, hq2⟩ := mem_enum_facts hq
  obtain ⟨hr1, -⟩ := mem_enum_facts hr
  exact ⟨hq1, by rw [← hall q.2 hq2]; exact hr1⟩

/-! ### Lemmas about the weight dataframe (`zip`/`set`/`lookup`) -/

theorem lookup_zip_set [DecidableEq α] :
    ∀ (fs : List α) (ws : List PFloat) (f : α) (x : PFloat),
      fs.Nodup → ws.length = fs.length → f ∈ fs →
      (fs.zip (ws.set (fs.indexOf f) x)).lookup f = some x ∧
      ∀ g, g ≠ f →
        (fs.zip (ws.set (fs.indexOf f) x)).lookup g = (fs.zip ws).lookup g := by
  intro fs
  induction fs with
  | nil =>
      intro ws f x _ _ h
      simp at h
  | cons f0 ft ih =>
      intro ws f x hnd hlen hmem
      rcases ws with - | ⟨w0, wt⟩
      · simp at hlen
      · by_cases hf : f0 = f
        · subst hf
          rw [List.indexOf_cons_self]
          constructor
          · simp [List.lookup]
          · intro g hg
            have hne : (g == f0) = false := beq_eq_false_iff_ne.mpr hg
            simp [List.lookup, hne]
        · have hmem2 : f ∈ ft := by
            rcases List.mem_cons.mp hmem with rfl | h
            · exact absurd rfl hf
            · exact h
          have hidx : (f0 :: ft).indexOf f = ft.indexOf f + 1 := by
            rw [List.indexOf_cons]
            simp [beq_eq_false_iff_ne.mpr hf]
          rw [hidx]
          have hlen2 : wt.length = ft.length := by simpa using hlen
          obtain ⟨h1, h2⟩ :=
            ih wt f x (List.nodup_cons.mp hnd).2 hlen2 hmem2
          have hne : (f == f0) = false := beq_eq_false_iff_ne.mpr (Ne.symm hf)
          constructor
          · simpa [List.lookup, List.set_cons_succ, List.zip_cons_cons, hne] using h1
          · intro g hg
            by_cases hg0 : g = f0
            · subst hg0
              simp [List.lookup, List.set_cons_succ, List.zip_cons_cons]
            · have hne2 : (g == f0) = false := beq_eq_false_iff_ne.mpr hg0
              simpa [List.lookup, List.set_cons_succ, List.zip_cons_cons, hne2]
                using h2 g hg

/-- After `change_weight`, the faces are untouched and the weight column
keeps its length. -/
theorem change_weight_preserves_shape [DecidableEq α] (d : Die α) (face : α)
    (w : PyVal) :
    (d.change_weight face w).1.faces = d.faces ∧
      (d.change_weight face w).1.weights.length = d.weights.length := by
  rw [Die.change_weight]
  by_cases hmem : face ∈ d.faces
  · rw [if_pos hmem]
    rcases htf : w.toFloat with - | x
    · exact ⟨rfl, rfl⟩
    · exact ⟨rfl, by simp⟩
  · rw [if_neg hmem]
    exact ⟨rfl, rfl⟩

/-! ### Lemmas about `pd.unique` and `value_counts` -/

theorem firstUniquesAux_sublist [DecidableEq α] (seen l : List α) :
    (firstUniquesAux seen l).Sublist l := by
  induction l generalizing seen with
  | nil => simp [firstUniquesAux]
  | cons x t ih =>
      rw [firstUniquesAux]
      by_cases hx : x ∈ seen
      · rw [if_pos hx]
        exact (ih seen).trans (List.sublist_cons_self x t)
      · rw [if_neg hx]
        exact List.Sublist.cons₂ x (ih (seen ++ [x]))

theorem mem_firstUniquesAux [DecidableEq α] (seen l : List α) (a : α) :
    a ∈ firstUniquesAux seen l ↔ a ∈ l ∧ a ∉ seen := by
  induction l generalizing seen with
  | nil => simp [firstUniquesAux]
  | cons x t ih =>
      rw [firstUniquesAux]
      by_cases hx : x ∈ seen
      · rw [if_pos hx, ih]
        constructor
        · rintro ⟨ht, hs⟩
          exact ⟨by simp [ht], hs⟩
        · rintro ⟨hxt, hs⟩
          rcases List.mem_cons.mp hxt with rfl | ht
          · exact absurd hx hs
          · exact ⟨ht, hs⟩
      · rw [if_neg hx]
        simp only [List.mem_cons, ih]
        constructor
        · rintro (rfl | ⟨ht, hs⟩)
          · exact ⟨Or.inl rfl, hx⟩
          · exact ⟨Or.inr ht, fun h => hs (by simp [h])⟩
        · rintro ⟨rfl | ht, hs⟩
          · exact Or.inl rfl
          · by_cases hax : a = x
            · exact Or.inl hax
            · exact Or.inr ⟨ht, by simp [hs, hax]⟩

theorem nodup_firstUniquesAux [DecidableEq α] (seen l : List α) :
    (firstUniquesAux seen l).Nodup := by
  induction l generalizing seen with
  | nil => simp [firstUniquesAux]
  | cons x t ih =>
      rw [firstUniquesAux]
      by_cases hx : x ∈ seen
      · rw [if_pos hx]
        exact ih seen
      · rw [if_neg hx]
        refine List.nodup_cons.mpr ⟨?_, ih (seen ++ [x])⟩
        rw [mem_firstUniquesAux]
        rintro ⟨-, hs⟩
        exact hs (by simp)

theorem mem_firstUniques [DecidableEq α] (l : List α) (a : α) :
    a ∈ firstUniques l ↔ a ∈ l := by
  rw [firstUniques, mem_firstUniquesAux]
  simp

theorem firstUniques_sublist [DecidableEq α] (l : List α) :
    (firstUniques l).Sublist l :=
  firstUniquesAux_sublist [] l

theorem firstUniques_nodup [DecidableEq α] (l : List α) :
    (firstUniques l).Nodup :=
  nodup_firstUniquesAux [] l

theorem mem_valueCounts {κ : Type u_1} [DecidableEq κ] (l : List κ) (k : κ)
    (cnt : Nat) : (k, cnt) ∈ valueCounts l ↔ k ∈ l ∧ cnt = l.count k := by
  simp only [valueCounts, List.mem_map, Prod.mk.injEq]
  constructor
  · rintro ⟨k', hk', rfl, rfl⟩
    exact ⟨(mem_firstUniques l k').mp hk', rfl⟩
  · rintro ⟨hk, rfl⟩
    exact ⟨k, (mem_firstUniques l k).mpr hk, rfl, rfl⟩

theorem count_map_eq_countP {β : Type u_1} [DecidableEq β] (f : α → β)
    (l : List α) (k : β) :
    (l.map f).count k = l.countP (fun x => decide (f x = k)) := by
  induction l with
  | nil => rfl
  | cons x t ih =>
      simp only [List.map_cons, List.count_cons, List.countP_cons, ih]
      by_cases h : f x = k <;> simp [h]

/-! ### The claims -/

/-- **C1.** For every die whose face weights sum to zero, `Die.roll` fails
with an error raised inside the call — the zero sum makes every computed
probability `nan` or `±∞`, np.random.choice's validation of the probability
sum then raises (`probabilities contain NaN`; the empty-population error for
a faceless die) — so the call never returns outcomes drawn from NaN-valued
probabilities. -/
theorem claim1_roll_zero_weight_sum_fails (d : Die α) (n : Nat) (u : Nat → ℚ)
    (hwf : d.Wf) (hsum : PFloat.sum d.weights = PFloat.num 0) :
    (∃ e, (d.roll n u).2 = Except.error e) ∧
      ∀ xs, (d.roll n u).2 ≠ Except.ok xs := by
  have hE : ∃ e, (d.roll n u).2 = Except.error e := by
    rcases hf : d.faces with - | ⟨a0, arest⟩
    · refine ⟨NpError.emptyA, ?_⟩
      simp [Die.roll, npChoice, hf]
    · have hfin := PFloat.sum_all_num hsum
      have hwne : d.weights ≠ [] := by
        intro h
        have hl : d.weights.length = d.faces.length := hwf
        rw [h, hf] at hl
        simp at hl
      have hz : (d.weights.map PFloat.toRat).sum = 0 := by
        have h1 := PFloat.sum_eq_num_sum hfin
        rw [hsum] at h1
        injection h1 with h
        exact h.symm
      have hnan : PFloat.sum (d.weights.map (fun w => w.div (PFloat.sum d.weights))) =
          PFloat.nan := by
        rw [hsum]
        exact sum_probs_nan hwne hfin hz
      have hplen : (d.weights.map (fun w => w.div (PFloat.sum d.weights))).length =
          (a0 :: arest).length := by
        rw [List.length_map, hwf, hf]
      refine ⟨NpError.probsContainNaN, ?_⟩
      show npChoice d.faces (d.weights.map fun w => w.div (PFloat.sum d.weights)) n u =
        Except.error NpError.probsContainNaN
      rw [hf]
      simp only [npChoice, hplen, ne_eq, not_true_eq_false, if_false, hnan,
        PFloat.isNan, if_true]
  obtain ⟨e, he⟩ := hE
  refine ⟨⟨e, he⟩, ?_⟩
  intro xs hxs
  rw [he] at hxs
  exact Except.noConfusion hxs

theorem claim1_witness :
    (∃ e, ((⟨[1, 2], [.num 0, .num 0]⟩ : Die ℤ).roll 1 (fun _ => (1 : ℚ)/2)).2 =
        Except.error e) ∧
      ∀ xs, ((⟨[1, 2], [.num 0, .num 0]⟩ : Die ℤ).roll 1 (fun _ => (1 : ℚ)/2)).2 ≠
        Except.ok xs :=
  claim1_roll_zero_weight_sum_fails _ 1 _ (by decide)
    (by norm_num [PFloat.sum, PFloat.add])

/-- **C4.** `Game.play` is atomic: when the roll loop raises, `_results`
is left exactly as it was (the wide table is assembled in a local variable
and only assigned on success). -/
theorem claim4_play_atomic (g : Game α) (n : Nat) (u : Nat → Nat → ℚ)
    (e : NpError) (h : (g.play n u).2 = some e) :
    (g.play n u).1.results = g.results := by
  simp only [Game.play] at h ⊢
  rcases hrc : Game.rollCols g.dice n u 0 with e' | cols
  · rfl
  · rw [hrc] at h
    simp at h

theorem claim4_witness :
    ((⟨[⟨[1], [.num 0]⟩], some [[5]]⟩ : Game ℤ).play 1 (fun _ _ => (1 : ℚ)/2)).2 =
        some NpError.probsContainNaN ∧
      ((⟨[⟨[1], [.num 0]⟩], some [[5]]⟩ : Game ℤ).play 1 (fun _ _ => (1 : ℚ)/2)).1.results =
        some [[5]] := by
  have h : ((⟨[⟨[1], [.num 0]⟩], some [[5]]⟩ : Game ℤ).play 1 (fun _ _ => (1 : ℚ)/2)).2 =
      some NpError.probsContainNaN := by
    norm_num [Game.play, Game.rollCols, Die.roll, npChoice, PFloat.sum, PFloat.add,
      PFloat.div, PFloat.isNan]
  exact ⟨h, claim4_play_atomic _ 1 _ _ h⟩

/-- **C2 (amended).** Constructing an `Analyzer` from a never-played `Game`
succeeds but stores the absent (`None`) value of `game.show('wide')`, not an
empty-but-valid table: the statistics methods are then *not* well-defined —
`jackpot` fails with `AttributeError` (`None.apply`) instead of returning a
zero count.  Constructing from a non-`Game` object fails with `ValueError`. -/
theorem claim2_analyzer_unplayed [DecidableEq α] (g : Game α)
    (hg : g.results = none) :
    Analyzer.init (AnalyzerArg.game g) = Except.ok ⟨none⟩ ∧
      (Analyzer.mk (none : Option (List (List α)))).jackpot =
        Except.error PyError.attributeError ∧
      (∀ k, (Analyzer.mk (none : Option (List (List α)))).jackpot ≠ Except.ok k) ∧
      Analyzer.init (AnalyzerArg.notGame : AnalyzerArg α) =
        Except.error PyError.valueError := by
  refine ⟨?_, rfl, by simp [Analyzer.jackpot], rfl⟩
  simp [Analyzer.init, Game.show, hg]

theorem claim2_witness :
    Analyzer.init (AnalyzerArg.game
        (⟨[⟨[1, 2, 3], [.num 1, .num 1, .num 1]⟩], none⟩ : Game ℤ)) =
      Except.ok ⟨none⟩ ∧
      (Analyzer.mk (none : Option (List (List ℤ)))).jackpot =
        Except.error PyError.attributeError ∧
      (∀ k, (Analyzer.mk (none : Option (List (List ℤ)))).jackpot ≠ Except.ok k) ∧
      Analyzer.init (AnalyzerArg.notGame : AnalyzerArg ℤ) =
        Except.error PyError.valueError :=
  claim2_analyzer_unplayed _ rfl

/-- Refutes C2 as stated: on a never-played game, the analyzer stores the
absent value (`None`), and `jackpot` does not yield the empty/zero result —
it fails with `AttributeError`. -/
theorem claim2_counterexample :
    Analyzer.init (AnalyzerArg.game
        (⟨[⟨[1, 2, 3], [.num 1, .num 1, .num 1]⟩], none⟩ : Game ℤ)) =
      Except.ok ⟨none⟩ ∧
      (Analyzer.mk (none : Option (List (List ℤ)))).jackpot =
        Except.error PyError.attributeError ∧
      (Analyzer.mk (none : Option (List (List ℤ)))).jackpot ≠ Except.ok 0 :=
  ⟨rfl, rfl, by simp [Analyzer.jackpot]⟩

/-- **C3 (code bug).** On a never-played game, `Game.show` returns `None`
for *every* form string — the `_results is None` early return precedes the
`form` validation — so `show('invalid')` returns `None` instead of raising
the `ValueError` that the claim (and the repository's own
`test_show_bad_input`, whose `setUp` never plays) expects. -/
theorem claim3_show_unplayed_any_form :
    (⟨[⟨[1, 2, 3], [.num 1, .num 1, .num 1]⟩, ⟨[1, 2, 3], [.num 1, .num 1, .num 1]⟩],
        none⟩ : Game ℤ).show "invalid" = Except.ok none ∧
      (⟨[⟨[1, 2, 3], [.num 1, .num 1, .num 1]⟩, ⟨[1, 2, 3], [.num 1, .num 1, .num 1]⟩],
        none⟩ : Game ℤ).show "wide" = Except.ok none ∧
      (⟨[⟨[1, 2, 3], [.num 1, .num 1, .num 1]⟩, ⟨[1, 2, 3], [.num 1, .num 1, .num 1]⟩],
        none⟩ : Game ℤ).show "narrow" = Except.ok none ∧
      ∀ form, (⟨[⟨[1, 2, 3], [.num 1, .num 1, .num 1]⟩,
        ⟨[1, 2, 3], [.num 1, .num 1, .num 1]⟩], none⟩ : Game ℤ).show form ≠
          Except.error PyError.valueError := by
  refine ⟨rfl, rfl, rfl, ?_⟩
  intro form
  simp [Game.show]

/-- **C7.** `change_weight` on a face of the alphabet with a
float-convertible value succeeds, the new snapshot maps that face to the
new weight and agrees with the old snapshot on every other face; an unknown
face raises `IndexError` and a non-convertible value raises `TypeError`,
both leaving the die (faces and weights) unchanged. -/
theorem claim7_change_weight_frame [DecidableEq α] (d : Die α) (face : α)
    (w : PyVal) (x : PFloat) (hnd : d.faces.Nodup) (hwf : d.Wf)
    (hmem : face ∈ d.faces) (hw : w.toFloat = some x) :
    (d.change_weight face w).2 = none ∧
      ((d.change_weight face w).1.show).lookup face = some x ∧
      (∀ g, g ≠ face →
        ((d.change_weight face w).1.show).lookup g = (d.show).lookup g) ∧
      (d.change_weight face w).1.faces = d.faces ∧
      (∀ w', w'.toFloat = none →
        d.change_weight face w' = (d, some PyError.typeError)) ∧
      (∀ f', f' ∉ d.faces → ∀ w',
        d.change_weight f' w' = (d, some PyError.indexError)) := by
  have hcw : d.change_weight face w =
      ({ d with weights := d.weights.set (d.faces.indexOf face) x }, none) := by
    simp only [Die.change_weight, if_pos hmem, hw]
  obtain ⟨h1, h2⟩ := lookup_zip_set d.faces d.weights face x hnd hwf hmem
  refine ⟨by rw [hcw], ?_, ?_, by rw [hcw], ?_, ?_⟩
  · rw [hcw]
    exact h1
  · intro g hg
    rw [hcw]
    exact h2 g hg
  · intro w' hw'
    simp only [Die.change_weight, if_pos hmem, hw']
  · intro f' hf' w'
    simp only [Die.change_weight, if_neg hf']

theorem claim7_witness :
    ((⟨[1, 2, 3], [.num 1, .num 1, .num 1]⟩ : Die ℤ).change_weight 2
        (PyVal.asFloat (.num (5/2)))).2 = none ∧
    (((⟨[1, 2, 3], [.num 1, .num 1, .num 1]⟩ : Die ℤ).change_weight 2
        (PyVal.asFloat (.num (5/2)))).1.show).lookup 2 = some (.num (5/2)) ∧
    (∀ g, g ≠ 2 →
      (((⟨[1, 2, 3], [.num 1, .num 1, .num 1]⟩ : Die ℤ).change_weight 2
          (PyVal.asFloat (.num (5/2)))).1.show).lookup g =
        ((⟨[1, 2, 3], [.num 1, .num 1, .num 1]⟩ : Die ℤ).show).lookup g) ∧
    ((⟨[1, 2, 3], [.num 1, .num 1, .num 1]⟩ : Die ℤ).change_weight 2
        (PyVal.asFloat (.num (5/2)))).1.faces =
      (⟨[1, 2, 3], [.num 1, .num 1, .num 1]⟩ : Die ℤ).faces ∧
    (∀ w', PyVal.toFloat w' = none →
      (⟨[1, 2, 3], [.num 1, .num 1, .num 1]⟩ : Die ℤ).change_weight 2 w' =
        (⟨[1, 2, 3], [.num 1, .num 1, .num 1]⟩, some PyError.typeError)) ∧
    ∀ f', f' ∉ (⟨[1, 2, 3], [.num 1, .num 1, .num 1]⟩ : Die ℤ).faces → ∀ w',
      (⟨[1, 2, 3], [.num 1, .num 1, .num 1]⟩ : Die ℤ).change_weight f' w' =
        (⟨[1, 2, 3], [.num 1, .num 1, .num 1]⟩, some PyError.indexError) :=
  claim7_change_weight_frame _ 2 _ (.num (5/2)) (by decide) (by decide)
    (by decide) rfl

/-- **C10.** `change_weight` performs no range check on the converted
weight: every float value — negative, zero, `nan` — is accepted and stored
verbatim at the face. -/
theorem claim10_change_weight_no_range_check [DecidableEq α] (d : Die α)
    (face : α) (x : PFloat) (hnd : d.faces.Nodup) (hwf : d.Wf)
    (hmem : face ∈ d.faces) :
    (d.change_weight face (PyVal.asFloat x)).2 = none ∧
      ((d.change_weight face (PyVal.asFloat x)).1.show).lookup face = some x := by
  have hcw : d.change_weight face (PyVal.asFloat x) =
      ({ d with weights := d.weights.set (d.faces.indexOf face) x }, none) := by
    simp only [Die.change_weight, if_pos hmem, PyVal.toFloat]
  obtain ⟨h1, -⟩ := lookup_zip_set d.faces d.weights face x hnd hwf hmem
  refine ⟨by rw [hcw], ?_⟩
  rw [hcw]
  exact h1

theorem claim10_witness :
    (((⟨[1, 2], [.num 1, .num 1]⟩ : Die ℤ).change_weight 1
        (PyVal.asFloat PFloat.nan)).2 = none ∧
      (((⟨[1, 2], [.num 1, .num 1]⟩ : Die ℤ).change_weight 1
        (PyVal.asFloat PFloat.nan)).1.show).lookup 1 = some PFloat.nan) ∧
    (((⟨[1, 2], [.num 1, .num 1]⟩ : Die ℤ).change_weight 2
        (PyVal.asFloat (.num (-3)))).2 = none ∧
      (((⟨[1, 2], [.num 1, .num 1]⟩ : Die ℤ).change_weight 2
        (PyVal.asFloat (.num (-3)))).1.show).lookup 2 = some (.num (-3))) ∧
    ((⟨[1, 2], [.num 1, .num 1]⟩ : Die ℤ).change_weight 1
        (PyVal.asFloat (.num 0))).2 = none ∧
    (((⟨[1, 2], [.num 1, .num 1]⟩ : Die ℤ).change_weight 1
        (PyVal.asFloat (.num 0))).1.show).lookup 1 = some (.num 0) :=
  ⟨claim10_change_weight_no_range_check _ 1 PFloat.nan (by decide) (by decide)
      (by decide),
    claim10_change_weight_no_range_check _ 2 (.num (-3)) (by decide) (by decide)
      (by decide),
    claim10_change_weight_no_range_check _ 1 (.num 0) (by decide) (by decide)
      (by decide)⟩

/-- The two-faced fair die used by several witnesses satisfies the data
model and has positive weight sum. -/
theorem fairDieTwo_valid :
    (⟨[1, 2], [.num 1, .num 1]⟩ : Die ℤ).DataModel ∧
      ∃ s, PFloat.sum (⟨[1, 2], [.num 1, .num 1]⟩ : Die ℤ).weights =
        PFloat.num s ∧ 0 < s := by
  refine ⟨⟨by decide, ?_⟩, 2, by norm_num [PFloat.sum, PFloat.add], by norm_num⟩
  intro w hw
  rcases List.mem_cons.mp hw with rfl | hw
  · exact ⟨1, rfl, by norm_num⟩
  · rcases List.mem_cons.mp hw with rfl | hw
    · exact ⟨1, rfl, by norm_num⟩
    · simp at hw

/-- **C8.** For a die satisfying the data-model weight invariant (finite
non-negative weights, as §3 declares) whose weight sum is positive,
`roll(n)` leaves the die unchanged and returns an ordered sequence of
exactly `n` outcomes, each a member of the face alphabet. -/
theorem claim8_roll_shape (d : Die α) (n : Nat) (u : Nat → ℚ)
    (hdm : d.DataModel)
    (hsum : ∃ s, PFloat.sum d.weights = PFloat.num s ∧ 0 < s)
    (hu : ∀ i, 0 ≤ u i ∧ u i < 1) :
    (d.roll n u).1 = d ∧
      ∃ xs, (d.roll n u).2 = Except.ok xs ∧ xs.length = n ∧
        ∀ x ∈ xs, x ∈ d.faces :=
  Die.roll_ok n u hdm.1 hdm.2 hsum hu

theorem claim8_witness :
    ((⟨[1, 2], [.num 1, .num 1]⟩ : Die ℤ).roll 3 (fun _ => (1 : ℚ)/2)).1 =
      (⟨[1, 2], [.num 1, .num 1]⟩ : Die ℤ) ∧
      ∃ xs, ((⟨[1, 2], [.num 1, .num 1]⟩ : Die ℤ).roll 3
          (fun _ => (1 : ℚ)/2)).2 = Except.ok xs ∧ xs.length = 3 ∧
        ∀ x ∈ xs, x ∈ (⟨[1, 2], [.num 1, .num 1]⟩ : Die ℤ).faces :=
  claim8_roll_shape _ 3 _ fairDieTwo_valid.1 fairDieTwo_valid.2
    (fun i => ⟨by norm_num, by norm_num⟩)

/-- **C6.** On a session with at least one die (as the `Game` docstring
requires), all dice satisfying the data model with positive weight sums:
`play(n)` succeeds and wholesale replaces `_results` with a table of `n`
rows and one column per die; `show('wide')` returns it, `show('narrow')`
returns the stacked table of `n * k` entries, each indexed by a valid
(roll number, die number) pair; `n = 0` is legal and yields the empty
table. -/
theorem claim6_play_show_shapes (g : Game α) (n : Nat) (u : Nat → Nat → ℚ)
    (hne : g.dice ≠ [])
    (hdice : ∀ d ∈ g.dice, d.DataModel ∧
      ∃ s, PFloat.sum d.weights = PFloat.num s ∧ 0 < s)
    (hu : ∀ i j, 0 ≤ u i j ∧ u i j < 1) :
    ∃ rows, (g.play n u).2 = none ∧ (g.play n u).1.results = some rows ∧
      rows.length = n ∧ (∀ r ∈ rows, r.length = g.dice.length) ∧
      (g.play n u).1.show "wide" = Except.ok (some (ShowResult.wide rows)) ∧
      (g.play n u).1.show "narrow" =
        Except.ok (some (ShowResult.narrow (stack rows))) ∧
      (stack rows).length = n * g.dice.length ∧
      (∀ p ∈ stack rows, p.1.1 < n ∧ p.1.2 < g.dice.length) ∧
      (n = 0 → rows = []) ∧
      ∀ r0, ((Game.mk g.dice r0).play n u).1.results = some rows := by
  obtain ⟨cols, hcols, hclen, hcall⟩ := Game.rollCols_ok n u hdice hu 0
  have hcne : cols ≠ [] := by
    intro h
    rw [h] at hclen
    exact hne (List.length_eq_zero.mp hclen.symm)
  obtain ⟨hrlen, hrall⟩ := dfFromCols_shape hcne hcall
  have hrall2 : ∀ r ∈ dfFromCols cols, r.length = g.dice.length := by
    intro r hr
    rw [hrall r hr, hclen]
  have hplay : ∀ r0, ((Game.mk g.dice r0 : Game α).play n u) =
      (⟨g.dice, some (dfFromCols cols)⟩, none) := by
    intro r0
    simp only [Game.play]
    rw [hcols]
  have hplayg : g.play n u = (⟨g.dice, some (dfFromCols cols)⟩, none) := by
    simp only [Game.play]
    rw [hcols]
  refine ⟨dfFromCols cols, by rw [hplayg], by rw [hplayg], hrlen, hrall2,
    by rw [hplayg]; rfl, by rw [hplayg]; rfl, ?_, ?_, ?_, ?_⟩
  · rw [stack_length hrall2, hrlen]
  · intro p hp
    obtain ⟨h1, h2⟩ := stack_mem_bounds hrall2 hp
    exact ⟨by rw [← hrlen]; exact h1, h2⟩
  · intro hn
    rw [hn] at hrlen
    exact List.length_eq_zero.mp hrlen
  · intro r0
    rw [hplay r0]

theorem claim6_witness :
    ∃ rows,
      ((⟨[⟨[1, 2], [.num 1, .num 1]⟩, ⟨[1, 2], [.num 1, .num 1]⟩], none⟩ :
          Game ℤ).play 2 (fun _ _ => (1 : ℚ)/2)).2 = none ∧
      ((⟨[⟨[1, 2], [.num 1, .num 1]⟩, ⟨[1, 2], [.num 1, .num 1]⟩], none⟩ :
          Game ℤ).play 2 (fun _ _ => (1 : ℚ)/2)).1.results = some rows ∧
      rows.length = 2 ∧
      (∀ r ∈ rows, r.length =
        (⟨[⟨[1, 2], [.num 1, .num 1]⟩, ⟨[1, 2], [.num 1, .num 1]⟩], none⟩ :
          Game ℤ).dice.length) ∧
      ((⟨[⟨[1, 2], [.num 1, .num 1]⟩, ⟨[1, 2], [.num 1, .num 1]⟩], none⟩ :
          Game ℤ).play 2 (fun _ _ => (1 : ℚ)/2)).1.show "wide" =
        Except.ok (some (ShowResult.wide rows)) ∧
      ((⟨[⟨[1, 2], [.num 1, .num 1]⟩, ⟨[1, 2], [.num 1, .num 1]⟩], none⟩ :
          Game ℤ).play 2 (fun _ _ => (1 : ℚ)/2)).1.show "narrow" =
        Except.ok (some (ShowResult.narrow (stack rows))) ∧
      (stack rows).length = 2 *
        (⟨[⟨[1, 2], [.num 1, .num 1]⟩, ⟨[1, 2], [.num 1, .num 1]⟩], none⟩ :
          Game ℤ).dice.length ∧
      (∀ p ∈ stack rows, p.1.1 < 2 ∧ p.1.2 <
        (⟨[⟨[1, 2], [.num 1, .num 1]⟩, ⟨[1, 2], [.num 1, .num 1]⟩], none⟩ :
          Game ℤ).dice.length) ∧
      ((2 : Nat) = 0 → rows = []) ∧
      ∀ r0, ((Game.mk
          (⟨[⟨[1, 2], [.num 1, .num 1]⟩, ⟨[1, 2], [.num 1, .num 1]⟩], none⟩ :
            Game ℤ).dice r0).play 2 (fun _ _ => (1 : ℚ)/2)).1.results =
        some rows :=
  claim6_play_show_shapes _ 2 _ (by simp)
    (by
      intro d hd
      rcases List.mem_cons.mp hd with rfl | hd
      · exact fairDieTwo_valid
      · rcases List.mem_cons.mp hd with rfl | hd
        · exact fairDieTwo_valid
        · simp at hd)
    (fun i j => ⟨by norm_num, by norm_num⟩)

/-- **C5.** `combo` keys each row by its ascending-sorted tuple — a key
`(k, cnt)` is reported iff `k` is the sort of some row and `cnt` is the
number of rows whose sort equals `k` (order-insensitive) — while
`permutation` keys each row by its original die-order tuple
(order-sensitive).  On the 2-die table [(1,2),(2,1),(1,1)], `combo`
reports exactly the two keys (1,2) ↦ 2 and (1,1) ↦ 1, and `permutation`
the three keys (1,2) ↦ 1, (2,1) ↦ 1, (1,1) ↦ 1. -/
theorem claim5_combo_permutation :
    (∀ (β : Type) [inst : LinearOrder β] (rows : List (List β)) (k : List β)
        (cnt : Nat),
      (∃ pairs, (Analyzer.mk (some rows)).combo = Except.ok pairs ∧
        ((k, cnt) ∈ pairs ↔ k ∈ rows.map (fun row => sortRow row) ∧
          cnt = rows.countP (fun r => decide (sortRow r = k)))) ∧
      (∃ pairs, (Analyzer.mk (some rows)).permutation = Except.ok pairs ∧
        ((k, cnt) ∈ pairs ↔ k ∈ rows ∧
          cnt = rows.countP (fun r => decide (r = k))))) ∧
    (∀ (β : Type) [inst : LinearOrder β] (row : List β),
      (sortRow row).Sorted (fun a b => a ≤ b) ∧ (sortRow row).Perm row) ∧
    (Analyzer.mk (some [[1, 2], [2, 1], [1, 1]]) : Analyzer ℤ).combo =
      Except.ok [([1, 2], 2), ([1, 1], 1)] ∧
    (Analyzer.mk (some [[1, 2], [2, 1], [1, 1]]) : Analyzer ℤ).permutation =
      Except.ok [([1, 2], 1), ([2, 1], 1), ([1, 1], 1)] := by
  refine ⟨?_, ?_, rfl, rfl⟩
  · intro β inst rows k cnt
    constructor
    · refine ⟨valueCounts (rows.map (fun row => sortRow row)), rfl, ?_⟩
      rw [mem_valueCounts, count_map_eq_countP]
    · refine ⟨valueCounts (rows.map (fun row => row)), rfl, ?_⟩
      rw [mem_valueCounts, count_map_eq_countP, List.map_id']
  · intro β inst row
    exact ⟨List.sorted_insertionSort _ _, List.perm_insertionSort _ _⟩

/-- **C9.** `face_counts_per_roll` builds its column universe from the
distinct values actually observed in the stored table, in first-occurrence
order of the row-major flattened read (`pd.unique(df.values.ravel())`), and
row `i`'s cell under value `v` is the number of cells of row `i` equal to
`v` (`0` when `v` does not occur in that row).  On the single-row table
[(1,1,2)] the universe is [1, 2] and the counts are 2 and 1. -/
theorem claim9_face_counts :
    (∀ (β : Type) [inst : DecidableEq β] (rows : List (List β)),
      ∃ uniqs counts,
        (Analyzer.mk (some rows)).face_counts_per_roll =
          Except.ok (uniqs, counts) ∧
        uniqs = firstUniques rows.flatten ∧
        uniqs.Nodup ∧
        uniqs.Sublist rows.flatten ∧
        (∀ v, v ∈ uniqs ↔ v ∈ rows.flatten) ∧
        counts.length = rows.length ∧
        (∀ (i : Nat) (row : List β), rows[i]? = some row →
          counts[i]? = some (uniqs.map (fun v => row.count v))) ∧
        (∀ row : List β, ∀ v, v ∉ row → row.count v = 0)) ∧
    (Analyzer.mk (some [[1, 1, 2]]) : Analyzer ℤ).face_counts_per_roll =
      Except.ok ([1, 2], [[2, 1]]) := by
  refine ⟨?_, rfl⟩
  intro β inst rows
  refine ⟨firstUniques rows.flatten,
    rows.map (fun row => (firstUniques rows.flatten).map
      (fun f => List.count f row)),
    rfl, rfl, firstUniques_nodup _, firstUniques_sublist _,
    fun v => mem_firstUniques _ v, by simp, ?_, ?_⟩
  · intro i row hrow
    rw [List.getElem?_map, hrow]
    rfl
  · intro row v hv
    exact List.count_eq_zero.mpr hv

end MonteCarlo
